import Mathlib

/-!
Verification development for the DQN learning loop of `learner/qlearn.py`
(`DeepQLearner`).  The stateful Python class is embedded shallowly: machine
state is an explicit structure, deques with `maxlen` become bounded lists,
floats become exact rationals, dictionary records with a deferred `reward`
key become a structure with an `Option` field, and the random library calls
(`random.random`, `random.sample`) are driven by an explicit oracle whose
admissible values mirror the library contracts.  Exceptions raised by the
Python code (indexing an empty deque, a missing dictionary key, an
out-of-range index) are modelled by `Option`: `none` is a raised exception.
-/

namespace Mqrio

/-- A normalized frame, as produced by `normalize_frame`: a grid of pixel
values (rationals standing for the floats in `[0,1]`). -/
abbrev Frame : Type := List (List ℚ)

/-- Modelled from the spec: the static hyperparameters imported from
`learner/config.py`, a file of this repository that is not under `src/`.
The spec (section 6, configuration surface) lists them as compile-time
constants; they are carried here as explicit data.  `LOGGING_FREQUENCY` and
`SAVING_FREQUENCY` are omitted: logging and saving touch no learner state. -/
structure Config where
  STATE_FRAMES : ℕ
  REPLAY_MEMORY_SIZE : ℕ
  REPLAY_START_SIZE : ℕ
  BATCH_SIZE : ℕ
  DISCOUNT : ℚ
  EXPLORATION_START_RATE : ℚ
  EXPLORATION_END_RATE : ℚ
  FINAL_EXPLORATION_FRAME : ℕ
  ACTION_REPEAT : ℕ
deriving DecidableEq, Repr

/-- Modelled from the spec: the function approximator `QNet`
(`learner/qnet.py` is not under `src/`).  The spec treats it as the opaque
capability set: `infer(state) -> value-vector` and
`update(batch) -> void`; `save`/`restore` are persistence side effects with
no effect on the learning-loop state.  `imres` stands for the external
`scipy.misc.imresize` call of `normalize_frame` (a raw screen capture
resized to a grid of per-pixel channel lists). -/
structure QNetModel (Raw Net : Type) where
  compute_q : Net → List Frame → List ℚ
  update : Net → List (List Frame) → List ℕ → List ℚ → Net
  imres : Raw → List (List (List ℚ))

/-- The fixed collaborators of one `DeepQLearner` instance: the
configuration, the ctor argument `actions` (a list of PyGame key constants,
integers), and the function approximator. -/
structure Params (Raw Net : Type) where
  cfg : Config
  actions : List ℤ
  qnet : QNetModel Raw Net

/-- One replay transition (`qlearn.py` lines 37-43 and
`remember_transition`).  The Python object is a dictionary whose `reward`
key is absent until `observe_reward` writes it; absence is `none`. -/
structure Transition where
  time : ℕ
  input : List Frame
  action : ℕ
  terminal : Bool
  reward : Option ℚ
deriving DecidableEq, Repr

/-- The mutable state of `DeepQLearner` (`__init__`, lines 18-44).
`previous_frames` is the deque with `maxlen = STATE_FRAMES - 1`, most
recent first; `transitions` is the replay deque with
`maxlen = REPLAY_MEMORY_SIZE`, oldest first. -/
structure LState (Raw Net : Type) where
  exploration_rate : ℚ
  iteration : ℤ
  previous_frames : List Raw
  repeating_action_rewards : ℚ
  transitions : List Transition
  net : Net
deriving DecidableEq, Repr

/-- The state built by `__init__` (lines 18-24, 44): exploration rate at the
configured start rate, iteration counter at `-1`, empty histories. -/
def initState {Raw Net : Type} (p : Params Raw Net) (n0 : Net) : LState Raw Net :=
  { exploration_rate := p.cfg.EXPLORATION_START_RATE
    iteration := -1
    previous_frames := []
    repeating_action_rewards := 0
    transitions := []
    net := n0 }

/-- `collections.deque(maxlen := m).append x` seen as a function on the list
of elements (oldest first): the element is appended on the right and, when
the deque is full, the oldest element is dropped from the left. -/
def dequeAppend {α : Type} (m : ℕ) (xs : List α) (x : α) : List α :=
  (xs ++ [x]).drop (xs.length + 1 - m)

/-- `collections.deque(maxlen := m).appendleft x` seen as a function on the
list of elements (newest first): the element is pushed on the left and, when
the deque is full, the rightmost element is dropped. -/
def dequeAppendLeft {α : Type} (m : ℕ) (x : α) (xs : List α) : List α :=
  (x :: xs).take m

/-- `np.clip(reward, -1, 1)` (line 101). -/
def clip (x : ℚ) : ℚ :=
  max (-1) (min x 1)

/-- `np.amax` on a non-empty vector; `np.amax` raises on an empty array and
the callers below only reach the non-empty case. -/
def amax : List ℚ → ℚ
  | [] => 0
  | x :: xs => xs.foldl max x

/-- First index attaining the maximum, as `np.argmax` (line 122). -/
def argmaxIdxAux : List ℚ → ℕ → ℕ → ℚ → ℕ
  | [], _, bi, _ => bi
  | x :: xs, i, bi, bv =>
      if bv < x then argmaxIdxAux xs (i + 1) i x else argmaxIdxAux xs (i + 1) bi bv

/-- `np.argmax` over a value vector (first index of the maximum). -/
def argmaxIdx : List ℚ → ℕ
  | [] => 0
  | x :: xs => argmaxIdxAux xs 1 0 x

/-- `normalize_frame` (lines 46-58): resize the raw capture (external
`imresize`, modelled by `qnet.imres`), take the per-pixel maximum across
color channels (`np.amax(..., axis=2)`), divide by `255`. -/
def normalize_frame {Raw Net : Type} (p : Params Raw Net) (frame : Raw) : Frame :=
  (p.qnet.imres frame).map (fun row => row.map (fun px => amax px / 255))

/-- `preprocess` (lines 60-75): normalize the frame; with no transition
recorded yet or fewer than `STATE_FRAMES - 1` retained frames, replicate it
`STATE_FRAMES` times (`np.repeat(..., axis=2)`); otherwise concatenate it
with each retained previous frame, normalized, in deque order (most recent
first).  The stacked state is the list of its channel slices. -/
def preprocess {Raw Net : Type} (p : Params Raw Net) (s : LState Raw Net) (frame : Raw) :
    List Frame :=
  let proc_frame := normalize_frame p frame
  if s.transitions.length = 0 ∨ s.previous_frames.length < p.cfg.STATE_FRAMES - 1 then
    List.replicate p.cfg.STATE_FRAMES proc_frame
  else
    proc_frame :: s.previous_frames.map (normalize_frame p)

/-- `remember_transition` (lines 77-91) as its effect on `self.transitions`:
append a record whose `time` is the length of the deque before the append,
whose `action` is `self.actions.index(action)`, and with no `reward` key.
(The chosen actions always occur in `self.actions`, so `List.indexOf` agrees
with Python `.index`.) -/
def remember_transition {Raw Net : Type} (p : Params Raw Net) (ts : List Transition)
    (pre_frame : List Frame) (action : ℤ) (terminal : Bool) : List Transition :=
  dequeAppend p.cfg.REPLAY_MEMORY_SIZE ts
    { time := ts.length
      input := pre_frame
      action := p.actions.indexOf action
      terminal := terminal
      reward := none }

/-- `observe_reward` (lines 93-101) as its effect on `self.transitions`:
a no-op on an empty deque, otherwise the clipped reward is written into the
`reward` field of the most recent transition. -/
def observe_reward (reward : ℚ) (ts : List Transition) : List Transition :=
  match ts.getLast? with
  | none => ts
  | some last => ts.dropLast ++ [{ last with reward := some (clip reward) }]

/-- `is_burning_in` (lines 103-104). -/
def is_burning_in {Raw Net : Type} (p : Params Raw Net) (ts : List Transition) : Bool :=
  decide (ts.length < p.cfg.REPLAY_START_SIZE)

/-- The quotient assigned by `do_explore` (lines 111-113):
`(FINAL_EXPLORATION_FRAME - iteration) /
 (FINAL_EXPLORATION_FRAME - ACTION_REPEAT * REPLAY_START_SIZE)`. -/
def exploration_quotient (cfg : Config) (i : ℤ) : ℚ :=
  ((cfg.FINAL_EXPLORATION_FRAME : ℚ) - (i : ℚ)) /
    ((cfg.FINAL_EXPLORATION_FRAME : ℚ) - (cfg.ACTION_REPEAT : ℚ) * (cfg.REPLAY_START_SIZE : ℚ))

/-- `do_explore` (lines 106-114): when not burning in and the exploration
rate is still above the end rate, the rate is reassigned to
`max EXPLORATION_END_RATE (exploration_quotient cfg iteration)`; the call
returns the explore decision `random.random() < rate ∨ is_burning_in`,
taken against the updated rate.  The pair is (new rate, decision). -/
def do_explore {Raw Net : Type} (p : Params Raw Net) (iteration : ℤ) (ts : List Transition)
    (rate : ℚ) (u : ℚ) : ℚ × Bool :=
  let rate' :=
    if is_burning_in p ts = false ∧ p.cfg.EXPLORATION_END_RATE < rate then
      max p.cfg.EXPLORATION_END_RATE (exploration_quotient p.cfg iteration)
    else rate
  (rate', decide (u < rate') || is_burning_in p ts)

/-- `random_action` (lines 124-126): `self.actions[int(u * len(actions))]`
with `u` the draw of `random.random()`; an out-of-range index (empty action
list, or an oracle outside `[0,1)`) is the raised `IndexError`. -/
def random_action {Raw Net : Type} (p : Params Raw Net) (u : ℚ) : Option ℤ :=
  p.actions.get? (Int.toNat ⌊u * (p.actions.length : ℚ)⌋)

/-- `best_action` (lines 116-122): `self.actions[np.argmax(compute_q frame)]`;
`np.argmax` on an empty vector raises, as does an out-of-range index. -/
def best_action {Raw Net : Type} (p : Params Raw Net) (n : Net) (frame : List Frame) :
    Option ℤ :=
  match p.qnet.compute_q n frame with
  | [] => none
  | q => p.actions.get? (argmaxIdx q)

/-- `compute_target_reward` (lines 128-141): start from the recorded reward
(a missing `reward` key is the raised `KeyError`, hence `none`); when the
transition is not terminal and `time < len(transitions) - 1`, add
`DISCOUNT * np.amax(compute_q (transitions[time + 1]).input)`. -/
def compute_target_reward {Raw Net : Type} (p : Params Raw Net) (s : LState Raw Net)
    (trans : Transition) : Option ℚ :=
  trans.reward.bind fun r =>
    if trans.terminal = false ∧ trans.time + 1 < s.transitions.length then
      (s.transitions.get? (trans.time + 1)).map fun nxt =>
        r + p.cfg.DISCOUNT * amax (p.qnet.compute_q s.net nxt.input)
    else
      some r

/-- Modelled from the contract of Python's `random.sample(population, k)`
(line 179): on success it returns `k` elements drawn at distinct positions
of the population (uniformly; the drawn positions are supplied here by the
oracle `idxs`), and it raises when no such draw exists.  An oracle outside
the contract is rejected. -/
def sampleBatch (ts : List Transition) (idxs : List ℕ) (k : ℕ) : Option (List Transition) :=
  if idxs.length = k ∧ idxs.Nodup ∧ ∀ i ∈ idxs, i < ts.length then
    some (idxs.filterMap fun i => ts.get? i)
  else
    none

/-- The per-step random draws: `u_explore` is the `random.random()` of
`do_explore`, `u_action` the one of `random_action`, `sample` the positions
drawn by `random.sample`. -/
structure Rand where
  u_explore : ℚ
  u_action : ℚ
  sample : List ℕ
deriving DecidableEq, Repr

/-- State after line 174: iteration incremented and the accumulated reward
observed into the previous transition. -/
def obsState {Raw Net : Type} (s : LState Raw Net) : LState Raw Net :=
  { s with
    iteration := s.iteration + 1
    transitions := observe_reward s.repeating_action_rewards s.transitions }

/-- State with the parameters returned by the `net.update` call installed. -/
def netState {Raw Net : Type} (s1 : LState Raw Net) (n : Net) : LState Raw Net :=
  { s1 with net := n }

/-- State with the exploration rate reassigned by `do_explore`. -/
def exploreState {Raw Net : Type} (p : Params Raw Net) (s2 : LState Raw Net) (rand : Rand) :
    LState Raw Net :=
  { s2 with
    exploration_rate :=
      (do_explore p s2.iteration s2.transitions s2.exploration_rate rand.u_explore).1 }

/-- Lines 176-183: when not burning in, sample a minibatch, compute its
target rewards and run one `net.update`; otherwise the parameters are left
untouched.  The value is the resulting network parameters. -/
def trainedNet {Raw Net : Type} (p : Params Raw Net) (s1 : LState Raw Net) (rand : Rand) :
    Option Net :=
  if is_burning_in p s1.transitions = true then
    some s1.net
  else
    (sampleBatch s1.transitions rand.sample p.cfg.BATCH_SIZE).bind fun minibatch =>
      (minibatch.mapM (compute_target_reward p s1)).map fun batch_targets =>
        p.qnet.update s1.net (minibatch.map (·.input)) (minibatch.map (·.action)) batch_targets

/-- Line 187: explore with `random_action`, otherwise `best_action`. -/
def select_action {Raw Net : Type} (p : Params Raw Net) (s3 : LState Raw Net)
    (proc : List Frame) (explore : Bool) (u : ℚ) : Option ℤ :=
  if explore then random_action p u else best_action p s3.net proc

/-- Lines 189-198: record the new transition, push the raw frame into the
retained-frame history, reset the reward accumulator, return the action. -/
def finishStep {Raw Net : Type} (p : Params Raw Net) (s3 : LState Raw Net) (frame : Raw)
    (proc : List Frame) (terminal : Bool) (action : ℤ) : LState Raw Net × List ℤ :=
  ({ s3 with
      transitions := remember_transition p s3.transitions proc action terminal
      previous_frames := dequeAppendLeft (p.cfg.STATE_FRAMES - 1) frame s3.previous_frames
      repeating_action_rewards := 0 },
   [action])

/-- The decision-tick path of `step` (lines 169-198).  The incoming `reward`
argument of `step` is not read on this path (the observation uses the
accumulated `repeating_action_rewards`); `net.save` (lines 170-171) is a
persistence side effect with no learner-state effect. -/
def decisionStep {Raw Net : Type} (p : Params Raw Net) (s : LState Raw Net) (frame : Raw)
    (terminal : Bool) (rand : Rand) : Option (LState Raw Net × List ℤ) :=
  (trainedNet p (obsState s) rand).bind fun net1 =>
    (select_action p (exploreState p (netState (obsState s) net1) rand)
        (preprocess p (netState (obsState s) net1) frame)
        (do_explore p (netState (obsState s) net1).iteration
          (netState (obsState s) net1).transitions
          (netState (obsState s) net1).exploration_rate rand.u_explore).2
        rand.u_action).map
      (finishStep p (exploreState p (netState (obsState s) net1) rand) frame
        (preprocess p (netState (obsState s) net1) frame) terminal)

/-- `step` (lines 143-198).  The iteration counter is incremented; on a tick
with `iteration % ACTION_REPEAT ≠ 0` (lines 164-167) the incoming reward is
accumulated, the raw frame is pushed into the retained-frame history and the
`action` field of the most recent transition is returned (indexing an empty
deque is the raised `IndexError`); otherwise the decision-tick path runs.
`log_status` (lines 158-159) only prints and is not modelled. -/
def step {Raw Net : Type} (p : Params Raw Net) (s : LState Raw Net) (frame : Raw)
    (reward : ℚ) (terminal : Bool) (rand : Rand) : Option (LState Raw Net × List ℤ) :=
  if (s.iteration + 1) % (p.cfg.ACTION_REPEAT : ℤ) ≠ 0 then
    (s.transitions.getLast?).map fun last =>
      ({ s with
          iteration := s.iteration + 1
          repeating_action_rewards := s.repeating_action_rewards + reward
          previous_frames := dequeAppendLeft (p.cfg.STATE_FRAMES - 1) frame s.previous_frames },
       [(last.action : ℤ)])
  else
    decisionStep p s frame terminal rand

/-- A sequence of `step` calls, collecting the returned action lists. -/
def run {Raw Net : Type} (p : Params Raw Net) :
    LState Raw Net → List (Raw × ℚ × Bool × Rand) → Option (LState Raw Net × List (List ℤ))
  | s, [] => some (s, [])
  | s, (f, r, t, rand) :: rest =>
      (step p s f r t rand).bind fun sr =>
        (run p sr.1 rest).map fun fin => (fin.1, sr.2 :: fin.2)

/-- States reachable from a freshly constructed learner by successful
`step` calls. -/
inductive Reachable {Raw Net : Type} (p : Params Raw Net) (n0 : Net) : LState Raw Net → Prop
  | init : Reachable p n0 (initState p n0)
  | next {s s' : LState Raw Net} {f : Raw} {r : ℚ} {t : Bool} {rand : Rand} {out : List ℤ} :
      Reachable p n0 s → step p s f r t rand = some (s', out) → Reachable p n0 s'

/-- Modelled from the spec (sections 4.4 and 8, target computation
boundary): the target value of the transition at position `j` of the buffer
is its reward when it is terminal or the newest transition of the buffer,
and otherwise its reward plus `DISCOUNT` times the maximum predicted value
of the successor transition's input. -/
def target_spec {Raw Net : Type} (p : Params Raw Net) (s : LState Raw Net) (j : ℕ) :
    Option ℚ :=
  (s.transitions.get? j).bind fun t =>
    t.reward.bind fun r =>
      if t.terminal = true ∨ j = s.transitions.length - 1 then
        some r
      else
        (s.transitions.get? (j + 1)).map fun nxt =>
          r + p.cfg.DISCOUNT * amax (p.qnet.compute_q s.net nxt.input)

/-- Sanity hypotheses on the configuration, as the spec states them
(sections 4.5, 6, 7): the cadence, sizes and exploration schedule bounds
under which the schedule claims are made. -/
structure ConfigWF (cfg : Config) : Prop where
  repeat_pos : 1 ≤ cfg.ACTION_REPEAT
  capacity_pos : 1 ≤ cfg.REPLAY_MEMORY_SIZE
  burnin_pos : 1 ≤ cfg.REPLAY_START_SIZE
  burnin_le_capacity : cfg.REPLAY_START_SIZE ≤ cfg.REPLAY_MEMORY_SIZE
  final_gt : cfg.ACTION_REPEAT * cfg.REPLAY_START_SIZE < cfg.FINAL_EXPLORATION_FRAME
  end_nonneg : 0 ≤ cfg.EXPLORATION_END_RATE
  end_le_start : cfg.EXPLORATION_END_RATE ≤ cfg.EXPLORATION_START_RATE

/-! ### Concrete instantiations used to evaluate the model on closed inputs -/

/-- A one-pixel resize: the raw capture is a single number, the resized
image one pixel with one channel. -/
def imres0 : ℕ → List (List (List ℚ)) := fun n => [[[(n : ℚ)]]]

/-- A concrete approximator over natural-number parameters: inference reads
the first pixel of the first channel slice, an update increments the
parameters (so update calls are observable). -/
def qnet0 : QNetModel ℕ ℕ :=
  { compute_q := fun _ inp => [amax ((inp.headD []).headD [])]
    update := fun n _ _ _ => n + 1
    imres := imres0 }

/-- Configuration for the action-repeat scenario (action repeat 2). -/
def cfg1 : Config :=
  { STATE_FRAMES := 2, REPLAY_MEMORY_SIZE := 10, REPLAY_START_SIZE := 5, BATCH_SIZE := 1,
    DISCOUNT := 1/2, EXPLORATION_START_RATE := 1, EXPLORATION_END_RATE := 1/10,
    FINAL_EXPLORATION_FRAME := 20, ACTION_REPEAT := 2 }

/-- The learner of `pong_player.py`: its action set is
`ACTIONS = [K_DOWN, K_UP, K_UNKNOWN] = [274, 273, 0]` (PyGame key
constants). -/
def p1 : Params ℕ ℕ := { cfg := cfg1, actions := [274, 273, 0], qnet := qnet0 }

/-- Oracle whose `random_action` draw selects index `1` of a three-element
action list (`int(0.5 * 3) = 1`). -/
def rand1 : Rand := { u_explore := 0, u_action := 1/2, sample := [] }

/-- Configuration for the eviction scenario: replay capacity 3, every tick a
decision tick, burn-in never completed (so training never interferes). -/
def cfg2 : Config :=
  { STATE_FRAMES := 1, REPLAY_MEMORY_SIZE := 3, REPLAY_START_SIZE := 100, BATCH_SIZE := 1,
    DISCOUNT := 1/2, EXPLORATION_START_RATE := 1, EXPLORATION_END_RATE := 0,
    FINAL_EXPLORATION_FRAME := 1000, ACTION_REPEAT := 1 }

/-- Learner for the eviction scenario. -/
def p2 : Params ℕ ℕ := { cfg := cfg2, actions := [10, 20], qnet := qnet0 }

/-- Oracle always exploring and always drawing action index 0. -/
def rand0 : Rand := { u_explore := 0, u_action := 0, sample := [] }

/-- Four ticks with distinct frames: one more transition than the capacity
of `cfg2`, so the oldest transition is evicted on the fourth tick. -/
def ins2 : List (ℕ × ℚ × Bool × Rand) :=
  [(1, 0, false, rand0), (2, 0, false, rand0), (3, 0, false, rand0), (4, 0, false, rand0)]

/-- Small well-formed configuration for witnesses: action repeat 2, burn-in
size 1, capacity 3. -/
def cfgW : Config :=
  { STATE_FRAMES := 2, REPLAY_MEMORY_SIZE := 3, REPLAY_START_SIZE := 1, BATCH_SIZE := 1,
    DISCOUNT := 1/2, EXPLORATION_START_RATE := 1, EXPLORATION_END_RATE := 0,
    FINAL_EXPLORATION_FRAME := 10, ACTION_REPEAT := 2 }

/-- Witness learner. -/
def pW : Params ℕ ℕ := { cfg := cfgW, actions := [5, 7], qnet := qnet0 }

/-- Witness oracle: explore, draw action index 0, sample buffer position 0. -/
def randW : Rand := { u_explore := 0, u_action := 0, sample := [0] }

/-- The state after one step of `pW` from the fresh learner on frame `7`. -/
def sW1 : LState ℕ ℕ :=
  { exploration_rate := 1
    iteration := 0
    previous_frames := [7]
    repeating_action_rewards := 0
    transitions := [{ time := 0, input := [[[7/255]], [[7/255]]], action := 0,
                      terminal := false, reward := none }]
    net := 0 }

/-- The state after a further repeat tick on frame `8` with reward `1`. -/
def sW2 : LState ℕ ℕ :=
  { exploration_rate := 1
    iteration := 1
    previous_frames := [8]
    repeating_action_rewards := 1
    transitions := [{ time := 0, input := [[[7/255]], [[7/255]]], action := 0,
                      terminal := false, reward := none }]
    net := 0 }

/-- The state after a further decision tick on frame `9`: the accumulated
reward `1` is observed into the first transition, one training update runs,
and a second transition is recorded. -/
def sW3 : LState ℕ ℕ :=
  { exploration_rate := 1
    iteration := 2
    previous_frames := [9]
    repeating_action_rewards := 0
    transitions := [{ time := 0, input := [[[7/255]], [[7/255]]], action := 0,
                      terminal := false, reward := some 1 },
                    { time := 1, input := [[[3/85]], [[8/255]]], action := 0,
                      terminal := false, reward := none }]
    net := 1 }

/-- A creation history of four bare transitions, one more than the capacity
of `cfgW`. -/
def hist4 : List Transition :=
  [{ time := 0, input := [], action := 0, terminal := false, reward := none },
   { time := 1, input := [], action := 0, terminal := false, reward := none },
   { time := 2, input := [], action := 0, terminal := false, reward := none },
   { time := 3, input := [], action := 0, terminal := false, reward := none }]

/-! ### Basic lemmas about the deque operations and the step decomposition -/

theorem dequeAppend_length {α : Type} (m : ℕ) (xs : List α) (x : α) :
    (dequeAppend m xs x).length = min (xs.length + 1) m := by
  unfold dequeAppend
  simp [List.length_drop]
  omega

theorem observe_reward_length (r : ℚ) (ts : List Transition) :
    (observe_reward r ts).length = ts.length := by
  unfold observe_reward
  cases hl : ts.getLast? with
  | none => rfl
  | some last =>
    have hne : ts ≠ [] := by
      intro he
      subst he
      simp at hl
    have hpos : 0 < ts.length := List.length_pos.mpr hne
    simp [List.length_dropLast]
    omega

theorem dequeAppend_dropLast_mem {α : Type} {m : ℕ} {xs : List α} {x y : α}
    (hy : y ∈ (dequeAppend m xs x).dropLast) : y ∈ xs := by
  unfold dequeAppend at hy
  by_cases hd : xs.length + 1 - m ≤ xs.length
  · rw [List.drop_append_of_le_length hd, List.dropLast_concat] at hy
    exact List.drop_subset _ _ hy
  · have hd' : xs.length + 1 - m = xs.length + 1 := by omega
    rw [hd'] at hy
    have hlen : ((xs ++ [x]).drop (xs.length + 1)).length = 0 := by
      simp [List.length_drop]
    rw [List.length_eq_zero.mp hlen] at hy
    simp at hy

theorem foldl_dequeAppend_drop {α : Type} (m : ℕ) (h : List α) :
    ∀ acc : List α, acc.length ≤ m →
      List.foldl (dequeAppend m) acc h = (acc ++ h).drop (acc.length + h.length - m) := by
  induction h with
  | nil =>
    intro acc hacc
    simp only [List.foldl_nil, List.append_nil, List.length_nil, Nat.add_zero]
    have h0 : acc.length - m = 0 := by omega
    rw [h0, List.drop_zero]
  | cons x rest ih =>
    intro acc hacc
    have hle : (dequeAppend m acc x).length ≤ m := by
      rw [dequeAppend_length]
      omega
    rw [List.foldl_cons, ih _ hle, dequeAppend_length]
    rw [show dequeAppend m acc x = (acc ++ [x]).drop (acc.length + 1 - m) from rfl]
    rw [← List.drop_append_of_le_length
        (by simp only [List.length_append, List.length_singleton]; omega),
      List.drop_drop]
    have harr : (acc ++ [x]) ++ rest = acc ++ x :: rest := by simp
    rw [harr]
    congr 1
    simp only [List.length_cons]
    omega

theorem sampleBatch_eq_some {ts : List Transition} {idxs : List ℕ} {k : ℕ}
    {mb : List Transition} (h : sampleBatch ts idxs k = some mb) :
    idxs.length = k ∧ idxs.Nodup ∧ (∀ i ∈ idxs, i < ts.length)
      ∧ mb = idxs.filterMap (fun i => ts.get? i) := by
  unfold sampleBatch at h
  by_cases hc : idxs.length = k ∧ idxs.Nodup ∧ ∀ i ∈ idxs, i < ts.length
  · rw [if_pos hc] at h
    exact ⟨hc.1, hc.2.1, hc.2.2, (Option.some.inj h).symm⟩
  · rw [if_neg hc] at h
    exact absurd h (by simp)

theorem filterMap_get_length {α : Type} (ts : List α) :
    ∀ idxs : List ℕ, (∀ i ∈ idxs, i < ts.length) →
      (idxs.filterMap (fun i => ts.get? i)).length = idxs.length := by
  intro idxs
  induction idxs with
  | nil => intro _; rfl
  | cons i rest ih =>
    intro hb
    have hi : i < ts.length := hb i (List.mem_cons_self i rest)
    have ha : ts.get? i = some (ts.get ⟨i, hi⟩) := List.get?_eq_get hi
    rw [List.filterMap_cons, ha]
    simp only [List.length_cons]
    exact congrArg (fun n => n + 1) (ih (fun j hj => hb j (List.mem_cons_of_mem i hj)))

theorem mem_filterMap_get {α : Type} {ts : List α} {idxs : List ℕ} {y : α}
    (hy : y ∈ idxs.filterMap (fun i => ts.get? i)) : y ∈ ts := by
  rcases List.mem_filterMap.mp hy with ⟨i, _, hget⟩
  exact List.get?_mem hget

theorem observe_reward_rewards {rr : ℚ} {ts : List Transition}
    (hts : ∀ t ∈ ts.dropLast, t.reward.isSome = true) :
    ∀ t ∈ observe_reward rr ts, t.reward.isSome = true := by
  unfold observe_reward
  cases hl : ts.getLast? with
  | none =>
    have : ts = [] := by
      cases ts with
      | nil => rfl
      | cons a l => simp [List.getLast?_concat, List.getLast?] at hl
    intro t ht
    rw [this] at ht
    simp at ht
  | some last =>
    intro t ht
    rcases List.mem_append.mp ht with h1 | h2
    · exact hts t h1
    · have : t = { last with reward := some (clip rr) } := by simpa using h2
      rw [this]
      rfl

theorem select_action_mem {Raw Net : Type} {p : Params Raw Net} {s3 : LState Raw Net}
    {proc : List Frame} {explore : Bool} {u : ℚ} {a : ℤ}
    (h : select_action p s3 proc explore u = some a) : a ∈ p.actions := by
  unfold select_action at h
  by_cases he : explore = true
  · rw [if_pos he] at h
    exact List.get?_mem h
  · rw [if_neg he] at h
    unfold best_action at h
    cases hq : p.qnet.compute_q s3.net proc with
    | nil => rw [hq] at h; exact absurd h (by simp)
    | cons q qs => rw [hq] at h; exact List.get?_mem h

/-! ### Destructuring the two paths of `step` -/

theorem step_repeat_fields {Raw Net : Type} {p : Params Raw Net} {s s' : LState Raw Net}
    {f : Raw} {r : ℚ} {tb : Bool} {rand : Rand} {out : List ℤ}
    (hrep : (s.iteration + 1) % (p.cfg.ACTION_REPEAT : ℤ) ≠ 0)
    (hstep : step p s f r tb rand = some (s', out)) :
    ∃ last, s.transitions.getLast? = some last
      ∧ s' = { s with
          iteration := s.iteration + 1
          repeating_action_rewards := s.repeating_action_rewards + r
          previous_frames := dequeAppendLeft (p.cfg.STATE_FRAMES - 1) f s.previous_frames }
      ∧ out = [(last.action : ℤ)] := by
  unfold step at hstep
  rw [if_pos hrep] at hstep
  rcases Option.map_eq_some'.mp hstep with ⟨last, hl, he⟩
  exact ⟨last, hl, (congrArg Prod.fst he).symm, (congrArg Prod.snd he).symm⟩

theorem step_decision_eq {Raw Net : Type} {p : Params Raw Net} {s s' : LState Raw Net}
    {f : Raw} {r : ℚ} {tb : Bool} {rand : Rand} {out : List ℤ}
    (hdec : (s.iteration + 1) % (p.cfg.ACTION_REPEAT : ℤ) = 0)
    (hstep : step p s f r tb rand = some (s', out)) :
    decisionStep p s f tb rand = some (s', out) := by
  unfold step at hstep
  rw [if_neg (not_not_intro hdec)] at hstep
  exact hstep

theorem step_decision_fields {Raw Net : Type} {p : Params Raw Net} {s s' : LState Raw Net}
    {f : Raw} {r : ℚ} {tb : Bool} {rand : Rand} {out : List ℤ}
    (hdec : (s.iteration + 1) % (p.cfg.ACTION_REPEAT : ℤ) = 0)
    (hstep : step p s f r tb rand = some (s', out)) :
    ∃ net1 a,
      trainedNet p (obsState s) rand = some net1
      ∧ select_action p (exploreState p (netState (obsState s) net1) rand)
          (preprocess p (netState (obsState s) net1) f)
          (do_explore p (s.iteration + 1)
            (observe_reward s.repeating_action_rewards s.transitions)
            s.exploration_rate rand.u_explore).2 rand.u_action = some a
      ∧ s'.exploration_rate = (do_explore p (s.iteration + 1)
          (observe_reward s.repeating_action_rewards s.transitions)
          s.exploration_rate rand.u_explore).1
      ∧ s'.iteration = s.iteration + 1
      ∧ s'.net = net1
      ∧ s'.repeating_action_rewards = 0
      ∧ s'.previous_frames = dequeAppendLeft (p.cfg.STATE_FRAMES - 1) f s.previous_frames
      ∧ s'.transitions = remember_transition p
          (observe_reward s.repeating_action_rewards s.transitions)
          (preprocess p (netState (obsState s) net1) f) a tb
      ∧ out = [a] := by
  have hds := step_decision_eq hdec hstep
  unfold decisionStep at hds
  rcases Option.bind_eq_some.mp hds with ⟨net1, hnet, hrest⟩
  rcases Option.map_eq_some'.mp hrest with ⟨a, hsel, he⟩
  have hs' : s' = (finishStep p (exploreState p (netState (obsState s) net1) rand) f
      (preprocess p (netState (obsState s) net1) f) tb a).1 := (congrArg Prod.fst he).symm
  have hout : out = (finishStep p (exploreState p (netState (obsState s) net1) rand) f
      (preprocess p (netState (obsState s) net1) f) tb a).2 := (congrArg Prod.snd he).symm
  exact ⟨net1, a, hnet, hsel, by rw [hs']; rfl, by rw [hs']; rfl, by rw [hs']; rfl,
    by rw [hs']; rfl, by rw [hs']; rfl, by rw [hs']; rfl, by rw [hout]; rfl⟩

theorem trainedNet_some {Raw Net : Type} {p : Params Raw Net} {s1 : LState Raw Net}
    {rand : Rand} {n1 : Net} (h : trainedNet p s1 rand = some n1) :
    (is_burning_in p s1.transitions = true ∧ n1 = s1.net)
    ∨ (is_burning_in p s1.transitions = false ∧ ∃ mb targets,
        sampleBatch s1.transitions rand.sample p.cfg.BATCH_SIZE = some mb
        ∧ mb.mapM (compute_target_reward p s1) = some targets
        ∧ n1 = p.qnet.update s1.net (mb.map (·.input)) (mb.map (·.action)) targets) := by
  unfold trainedNet at h
  by_cases hb : is_burning_in p s1.transitions = true
  · rw [if_pos hb] at h
    exact Or.inl ⟨hb, (Option.some.inj h).symm⟩
  · rw [if_neg hb] at h
    rcases Option.bind_eq_some.mp h with ⟨mb, hmb, hrest⟩
    rcases Option.map_eq_some'.mp hrest with ⟨targets, htg, heq⟩
    have hb' : is_burning_in p s1.transitions = false := by
      cases hB : is_burning_in p s1.transitions
      · rfl
      · exact absurd hB hb
    exact Or.inr ⟨hb', mb, targets, hmb, htg, heq.symm⟩

/-! ### Invariants of reachable learner states -/

theorem reachable_length_le {Raw Net : Type} (p : Params Raw Net) (n0 : Net)
    {s : LState Raw Net} (h : Reachable p n0 s) :
    s.transitions.length ≤ p.cfg.REPLAY_MEMORY_SIZE := by
  induction h with
  | init => simp [initState]
  | @next s s' f r tb rand out hr hstep ih =>
    by_cases hdec : (s.iteration + 1) % (p.cfg.ACTION_REPEAT : ℤ) = 0
    · rcases step_decision_fields hdec hstep with
        ⟨net1, a, _, _, _, _, _, _, _, htrans, _⟩
      rw [htrans]
      unfold remember_transition
      rw [dequeAppend_length]
      omega
    · rcases step_repeat_fields hdec hstep with ⟨last, _, hs', _⟩
      rw [hs']
      exact ih

theorem reachable_iteration_ge {Raw Net : Type} (p : Params Raw Net) (n0 : Net)
    {s : LState Raw Net} (h : Reachable p n0 s) : -1 ≤ s.iteration := by
  induction h with
  | init => exact le_refl _
  | @next s s' f r tb rand out hr hstep ih =>
    by_cases hdec : (s.iteration + 1) % (p.cfg.ACTION_REPEAT : ℤ) = 0
    · rcases step_decision_fields hdec hstep with ⟨net1, a, _, _, _, hit, _⟩
      rw [hit]
      linarith
    · rcases step_repeat_fields hdec hstep with ⟨last, _, hs', _⟩
      rw [hs']
      show -1 ≤ s.iteration + 1
      linarith

theorem reachable_cadence {Raw Net : Type} (p : Params Raw Net) (n0 : Net)
    (hR : 1 ≤ p.cfg.ACTION_REPEAT) {s : LState Raw Net} (h : Reachable p n0 s) :
    (p.cfg.ACTION_REPEAT : ℤ) * s.transitions.length
      ≤ s.iteration + p.cfg.ACTION_REPEAT := by
  have hRz : (1 : ℤ) ≤ (p.cfg.ACTION_REPEAT : ℤ) := by exact_mod_cast hR
  induction h with
  | init =>
    simp [initState]
    linarith
  | @next s s' f r tb rand out hr hstep ih =>
    by_cases hdec : (s.iteration + 1) % (p.cfg.ACTION_REPEAT : ℤ) = 0
    · rcases step_decision_fields hdec hstep with
        ⟨net1, a, _, _, _, hit, _, _, _, htrans, _⟩
      have hlen : s'.transitions.length ≤ s.transitions.length + 1 := by
        rw [htrans]
        unfold remember_transition
        rw [dequeAppend_length, observe_reward_length]
        omega
      obtain ⟨m, hm⟩ := Int.dvd_of_emod_eq_zero hdec
      have h1 : (p.cfg.ACTION_REPEAT : ℤ) * s.transitions.length
          < (p.cfg.ACTION_REPEAT : ℤ) * (m + 1) := by
        rw [mul_add, mul_one]
        linarith [ih]
      have h2 : (s.transitions.length : ℤ) < m + 1 :=
        lt_of_mul_lt_mul_left h1 (by linarith)
      have h4 : (s'.transitions.length : ℤ) ≤ (s.transitions.length : ℤ) + 1 := by
        exact_mod_cast hlen
      rw [hit]
      calc (p.cfg.ACTION_REPEAT : ℤ) * s'.transitions.length
          ≤ (p.cfg.ACTION_REPEAT : ℤ) * ((s.transitions.length : ℤ) + 1) :=
            mul_le_mul_of_nonneg_left h4 (by linarith)
        _ = (p.cfg.ACTION_REPEAT : ℤ) * s.transitions.length + p.cfg.ACTION_REPEAT := by ring
        _ ≤ (p.cfg.ACTION_REPEAT : ℤ) * m + p.cfg.ACTION_REPEAT := by
            have := mul_le_mul_of_nonneg_left (by linarith : (s.transitions.length : ℤ) ≤ m)
              (by linarith : (0 : ℤ) ≤ (p.cfg.ACTION_REPEAT : ℤ))
            linarith
        _ = (s.iteration + 1) + p.cfg.ACTION_REPEAT := by rw [hm]
    · rcases step_repeat_fields hdec hstep with ⟨last, _, hs', _⟩
      rw [hs']
      show (p.cfg.ACTION_REPEAT : ℤ) * s.transitions.length
        ≤ (s.iteration + 1) + p.cfg.ACTION_REPEAT
      linarith [ih]

theorem decision_iteration_ge {Raw Net : Type} (p : Params Raw Net) (n0 : Net)
    (hR : 1 ≤ p.cfg.ACTION_REPEAT) {s : LState Raw Net} (h : Reachable p n0 s)
    (hdec : (s.iteration + 1) % (p.cfg.ACTION_REPEAT : ℤ) = 0)
    (hlen : p.cfg.REPLAY_START_SIZE ≤ s.transitions.length) :
    ((p.cfg.ACTION_REPEAT * p.cfg.REPLAY_START_SIZE : ℕ) : ℤ) ≤ s.iteration + 1 := by
  have hc := reachable_cadence p n0 hR h
  obtain ⟨m, hm⟩ := Int.dvd_of_emod_eq_zero hdec
  have hRz : (1 : ℤ) ≤ (p.cfg.ACTION_REPEAT : ℤ) := by exact_mod_cast hR
  have hS : ((p.cfg.REPLAY_START_SIZE : ℕ) : ℤ) ≤ (s.transitions.length : ℤ) := by
    exact_mod_cast hlen
  have h2 : (p.cfg.ACTION_REPEAT : ℤ) * p.cfg.REPLAY_START_SIZE
      < (p.cfg.ACTION_REPEAT : ℤ) * (m + 1) := by
    have h1 : (p.cfg.ACTION_REPEAT : ℤ) * p.cfg.REPLAY_START_SIZE
        ≤ (p.cfg.ACTION_REPEAT : ℤ) * s.transitions.length :=
      mul_le_mul_of_nonneg_left hS (by linarith)
    rw [mul_add, mul_one]
    linarith [hc, hm]
  have h3 : ((p.cfg.REPLAY_START_SIZE : ℕ) : ℤ) < m + 1 :=
    lt_of_mul_lt_mul_left h2 (by linarith)
  have h4 : (p.cfg.ACTION_REPEAT : ℤ) * p.cfg.REPLAY_START_SIZE
      ≤ (p.cfg.ACTION_REPEAT : ℤ) * m :=
    mul_le_mul_of_nonneg_left (by linarith) (by linarith)
  calc ((p.cfg.ACTION_REPEAT * p.cfg.REPLAY_START_SIZE : ℕ) : ℤ)
      = (p.cfg.ACTION_REPEAT : ℤ) * p.cfg.REPLAY_START_SIZE := by push_cast; ring
    _ ≤ (p.cfg.ACTION_REPEAT : ℤ) * m := h4
    _ = s.iteration + 1 := hm.symm

/-! ### The exploration schedule -/

theorem exploration_quotient_denom_pos {cfg : Config} (W : ConfigWF cfg) :
    0 < (cfg.FINAL_EXPLORATION_FRAME : ℚ)
      - (cfg.ACTION_REPEAT : ℚ) * (cfg.REPLAY_START_SIZE : ℚ) := by
  have h : ((cfg.ACTION_REPEAT * cfg.REPLAY_START_SIZE : ℕ) : ℚ)
      < ((cfg.FINAL_EXPLORATION_FRAME : ℕ) : ℚ) := by exact_mod_cast W.final_gt
  push_cast at h
  linarith

theorem exploration_quotient_mono {cfg : Config} (W : ConfigWF cfg) {i j : ℤ}
    (hij : i ≤ j) : exploration_quotient cfg j ≤ exploration_quotient cfg i := by
  unfold exploration_quotient
  have hd := exploration_quotient_denom_pos W
  rw [div_le_div_iff₀ hd hd]
  have hij' : (i : ℚ) ≤ (j : ℚ) := by exact_mod_cast hij
  nlinarith

theorem exploration_quotient_le_one {cfg : Config} (W : ConfigWF cfg) {i : ℤ}
    (hi : ((cfg.ACTION_REPEAT * cfg.REPLAY_START_SIZE : ℕ) : ℤ) ≤ i) :
    exploration_quotient cfg i ≤ 1 := by
  unfold exploration_quotient
  have hd := exploration_quotient_denom_pos W
  rw [div_le_one hd]
  have h : ((cfg.ACTION_REPEAT * cfg.REPLAY_START_SIZE : ℕ) : ℚ) ≤ (i : ℚ) := by
    exact_mod_cast hi
  push_cast at h
  linarith

theorem exploration_quotient_nonpos {cfg : Config} (W : ConfigWF cfg) {i : ℤ}
    (hi : (cfg.FINAL_EXPLORATION_FRAME : ℤ) ≤ i) :
    exploration_quotient cfg i ≤ 0 := by
  unfold exploration_quotient
  have hd := exploration_quotient_denom_pos W
  have hnum : (cfg.FINAL_EXPLORATION_FRAME : ℚ) - (i : ℚ) ≤ 0 := by
    have h : ((cfg.FINAL_EXPLORATION_FRAME : ℕ) : ℚ) ≤ (i : ℚ) := by exact_mod_cast hi
    linarith
  exact div_nonpos_of_nonpos_of_nonneg hnum (le_of_lt hd)

theorem do_explore_fst {Raw Net : Type} (p : Params Raw Net) (i : ℤ)
    (ts : List Transition) (rate u : ℚ) :
    (do_explore p i ts rate u).1 =
      if is_burning_in p ts = false ∧ p.cfg.EXPLORATION_END_RATE < rate then
        max p.cfg.EXPLORATION_END_RATE (exploration_quotient p.cfg i)
      else rate := rfl

theorem is_burning_in_observe {Raw Net : Type} (p : Params Raw Net) (r : ℚ)
    (ts : List Transition) :
    is_burning_in p (observe_reward r ts) = is_burning_in p ts := by
  unfold is_burning_in
  rw [observe_reward_length]

theorem reachable_rate_ge_end {Raw Net : Type} (p : Params Raw Net) (n0 : Net)
    (hes : p.cfg.EXPLORATION_END_RATE ≤ p.cfg.EXPLORATION_START_RATE)
    {s : LState Raw Net} (h : Reachable p n0 s) :
    p.cfg.EXPLORATION_END_RATE ≤ s.exploration_rate := by
  induction h with
  | init => exact hes
  | @next s s' f r tb rand out hr hstep ih =>
    by_cases hdec : (s.iteration + 1) % (p.cfg.ACTION_REPEAT : ℤ) = 0
    · rcases step_decision_fields hdec hstep with ⟨net1, a, _, _, hrate, _⟩
      rw [hrate, do_explore_fst]
      by_cases hc : is_burning_in p (observe_reward s.repeating_action_rewards s.transitions)
            = false ∧ p.cfg.EXPLORATION_END_RATE < s.exploration_rate
      · rw [if_pos hc]
        exact le_max_left _ _
      · rw [if_neg hc]
        exact ih
    · rcases step_repeat_fields hdec hstep with ⟨last, _, hs', _⟩
      rw [hs']
      exact ih

theorem reachable_rate_line {Raw Net : Type} (p : Params Raw Net) (n0 : Net)
    (W : ConfigWF p.cfg) {s : LState Raw Net} (h : Reachable p n0 s) :
    s.exploration_rate = p.cfg.EXPLORATION_START_RATE ∨
      exploration_quotient p.cfg s.iteration ≤ s.exploration_rate := by
  induction h with
  | init => exact Or.inl rfl
  | @next s s' f r tb rand out hr hstep ih =>
    by_cases hdec : (s.iteration + 1) % (p.cfg.ACTION_REPEAT : ℤ) = 0
    · rcases step_decision_fields hdec hstep with ⟨net1, a, _, _, hrate, hit, _⟩
      rw [hrate, hit, do_explore_fst]
      by_cases hc : is_burning_in p (observe_reward s.repeating_action_rewards s.transitions)
            = false ∧ p.cfg.EXPLORATION_END_RATE < s.exploration_rate
      · rw [if_pos hc]
        exact Or.inr (le_max_right _ _)
      · rw [if_neg hc]
        rcases ih with h1 | h2
        · exact Or.inl h1
        · exact Or.inr (le_trans (exploration_quotient_mono W (by linarith)) h2)
    · rcases step_repeat_fields hdec hstep with ⟨last, _, hs', _⟩
      rw [hs']
      show s.exploration_rate = p.cfg.EXPLORATION_START_RATE ∨
        exploration_quotient p.cfg (s.iteration + 1) ≤ s.exploration_rate
      rcases ih with h1 | h2
      · exact Or.inl h1
      · exact Or.inr (le_trans (exploration_quotient_mono W (by linarith)) h2)

theorem reachable_burnin_rate {Raw Net : Type} (p : Params Raw Net) (n0 : Net)
    (W : ConfigWF p.cfg) {s : LState Raw Net} (h : Reachable p n0 s) :
    s.transitions.length < p.cfg.REPLAY_START_SIZE →
      s.exploration_rate = p.cfg.EXPLORATION_START_RATE := by
  induction h with
  | init => intro _; rfl
  | @next s s' f r tb rand out hr hstep ih =>
    intro hb'
    by_cases hdec : (s.iteration + 1) % (p.cfg.ACTION_REPEAT : ℤ) = 0
    · rcases step_decision_fields hdec hstep with
        ⟨net1, a, _, _, hrate, _, _, _, _, htrans, _⟩
      have hlenle := reachable_length_le p n0 hr
      have hmono : s.transitions.length ≤ s'.transitions.length := by
        rw [htrans]
        unfold remember_transition
        rw [dequeAppend_length, observe_reward_length]
        omega
      have hsb : s.transitions.length < p.cfg.REPLAY_START_SIZE :=
        lt_of_le_of_lt hmono hb'
      rw [hrate, do_explore_fst, if_neg]
      · exact ih hsb
      · intro hc
        have hburn : is_burning_in p
            (observe_reward s.repeating_action_rewards s.transitions) = true := by
          rw [is_burning_in_observe]
          unfold is_burning_in
          simp [hsb]
        rw [hburn] at hc
        exact absurd hc.1 (by simp)
    · rcases step_repeat_fields hdec hstep with ⟨last, _, hs', _⟩
      have hb'' : s.transitions.length < p.cfg.REPLAY_START_SIZE := by
        rw [hs'] at hb'
        exact hb'
      rw [hs']
      exact ih hb''

theorem reachable_rewards_dropLast {Raw Net : Type} (p : Params Raw Net) (n0 : Net)
    {s : LState Raw Net} (h : Reachable p n0 s) :
    ∀ t ∈ s.transitions.dropLast, t.reward.isSome = true := by
  induction h with
  | init =>
    intro t ht
    simp [initState] at ht
  | @next s s' f r tb rand out hr hstep ih =>
    by_cases hdec : (s.iteration + 1) % (p.cfg.ACTION_REPEAT : ℤ) = 0
    · rcases step_decision_fields hdec hstep with
        ⟨net1, a, _, _, _, _, _, _, _, htrans, _⟩
      intro t ht
      rw [htrans] at ht
      unfold remember_transition at ht
      exact observe_reward_rewards ih t (dequeAppend_dropLast_mem ht)
    · rcases step_repeat_fields hdec hstep with ⟨last, _, hs', _⟩
      rw [hs']
      exact ih

/-! ### The claims -/

attribute [local semireducible] Rat.add Rat.mul Rat.inv Rat.sub

set_option maxRecDepth 100000

theorem cfgW_wf : ConfigWF cfgW := by
  refine ⟨?_, ?_, ?_, ?_, ?_, ?_, ?_⟩ <;> decide

theorem sW1_reachable : Reachable pW 0 sW1 :=
  Reachable.next Reachable.init
    (by decide : step pW (initState pW 0) 7 0 false randW = some (sW1, [5]))

theorem sW2_reachable : Reachable pW 0 sW2 :=
  Reachable.next sW1_reachable
    (by decide : step pW sW1 8 1 false randW = some (sW2, [0]))

/-- Claim C1: the claim says every `step` call returns a non-empty collection
of members of the configured action set, and that a non-decision tick returns
exactly the action of the last decision tick.  The code violates this: on a
non-decision tick (line 167) it returns `transitions[-1]['action']`, which is
the stored action INDEX, not the action.  With the action set of
`pong_player.py`, `[K_DOWN, K_UP, K_UNKNOWN] = [274, 273, 0]`, the decision
tick chooses `K_UP = 273` (index 1) and the following tick returns `[1]`,
which is not a member of the action set and is not the chosen action. -/
theorem step_repeat_returns_action_index :
    (run p1 (initState p1 0) [(7, 0, false, rand1), (8, 1, false, rand1)]).map Prod.snd
      = some [[273], [1]]
    ∧ (1 : ℤ) ∉ p1.actions
    ∧ (273 : ℤ) ∈ p1.actions := by
  decide

/-- Claim C2: the claim says a sampled transition's target equals its reward
exactly when it is terminal or the newest transition, and otherwise adds the
discounted maximum predicted value of the successor's input — for all buffer
states, including after eviction.  The code violates this once FIFO eviction
has begun: `time` is `len(transitions)` at creation, so it saturates at the
capacity and stops matching the transition's position.  After four ticks with
capacity 3 the buffer holds times `[1, 2, 3]`: the non-terminal transition at
position 1 is not the newest, yet `compute_target_reward` returns its bare
reward `0` (the claim requires `0 + 1/2 · amax q = 2/255`, the value of
`target_spec`); and the transition at position 0 bootstraps from position 2
(the newest) instead of its successor at position 1 (`2/255` instead of the
claimed `1/170`). -/
theorem compute_target_reward_stale_time_after_eviction :
    (run p2 (initState p2 0) ins2).map
        (fun pr => pr.1.transitions.map (fun t => (t.time, t.terminal, t.reward)))
      = some [(1, false, some 0), (2, false, some 0), (3, false, none)]
    ∧ (run p2 (initState p2 0) ins2).map
        (fun pr => (pr.1.transitions.get? 1).map (compute_target_reward p2 pr.1))
      = some (some (some 0))
    ∧ (run p2 (initState p2 0) ins2).map (fun pr => target_spec p2 pr.1 1)
      = some (some (2/255))
    ∧ (run p2 (initState p2 0) ins2).map
        (fun pr => (pr.1.transitions.get? 0).map (compute_target_reward p2 pr.1))
      = some (some (some (2/255)))
    ∧ (run p2 (initState p2 0) ins2).map (fun pr => target_spec p2 pr.1 0)
      = some (some (1/170))
    ∧ (some 0 : Option ℚ) ≠ some (2/255)
    ∧ (some (2/255) : Option ℚ) ≠ some (1/170) := by
  decide

/-- Claim C5: on a decision tick the reward observation is a no-op when no
transition exists, and otherwise writes the clipped accumulated reward into
the reward field of the most recently created transition; the transition
created on the same tick is appended afterwards with its reward still
absent. -/
theorem step_decision_deferred_observe {Raw Net : Type} (p : Params Raw Net)
    {s s' : LState Raw Net} {f : Raw} {r : ℚ} {tb : Bool} {rand : Rand} {out : List ℤ}
    (hdec : (s.iteration + 1) % (p.cfg.ACTION_REPEAT : ℤ) = 0)
    (hstep : step p s f r tb rand = some (s', out)) :
    (s.transitions = [] →
        observe_reward s.repeating_action_rewards s.transitions = s.transitions)
    ∧ (∀ hne : s.transitions ≠ [],
        observe_reward s.repeating_action_rewards s.transitions
          = s.transitions.dropLast
            ++ [{ s.transitions.getLast hne with
                  reward := some (clip s.repeating_action_rewards) }])
    ∧ ∃ tNew, tNew.reward = none
        ∧ s'.transitions = dequeAppend p.cfg.REPLAY_MEMORY_SIZE
            (observe_reward s.repeating_action_rewards s.transitions) tNew := by
  refine ⟨?_, ?_, ?_⟩
  · intro he
    rw [he]
    rfl
  · intro hne
    unfold observe_reward
    rw [List.getLast?_eq_getLast s.transitions hne]
  · rcases step_decision_fields hdec hstep with
      ⟨net1, a, _, _, _, _, _, _, _, htrans, _⟩
    refine ⟨{ time := (observe_reward s.repeating_action_rewards s.transitions).length,
              input := preprocess p (netState (obsState s) net1) f,
              action := p.actions.indexOf a, terminal := tb, reward := none }, rfl, ?_⟩
    rw [htrans]
    rfl

/-- Claim C6: every `step` increments the iteration counter by one; the very
first tick is a decision tick; a non-decision tick creates no transition and
adds the incoming reward to the accumulator; a decision tick resets the
accumulator to zero, selects an action from the action set and appends
exactly one fresh transition (reward absent, `time` = buffer length at
creation, `action` = the chosen action's index). -/
theorem step_action_repeat_cadence {Raw Net : Type} (p : Params Raw Net)
    {s s' : LState Raw Net} {f : Raw} {r : ℚ} {tb : Bool} {rand : Rand} {out : List ℤ}
    (hstep : step p s f r tb rand = some (s', out)) :
    s'.iteration = s.iteration + 1
    ∧ (s.iteration = -1 → (s.iteration + 1) % (p.cfg.ACTION_REPEAT : ℤ) = 0)
    ∧ ((s.iteration + 1) % (p.cfg.ACTION_REPEAT : ℤ) ≠ 0 →
        s'.transitions = s.transitions
        ∧ s'.repeating_action_rewards = s.repeating_action_rewards + r)
    ∧ ((s.iteration + 1) % (p.cfg.ACTION_REPEAT : ℤ) = 0 →
        s'.repeating_action_rewards = 0
        ∧ ∃ a tNew, out = [a] ∧ a ∈ p.actions
          ∧ tNew.reward = none
          ∧ tNew.time = s.transitions.length
          ∧ tNew.terminal = tb
          ∧ tNew.action = p.actions.indexOf a
          ∧ s'.transitions = dequeAppend p.cfg.REPLAY_MEMORY_SIZE
              (observe_reward s.repeating_action_rewards s.transitions) tNew) := by
  refine ⟨?_, ?_, ?_, ?_⟩
  · by_cases hdec : (s.iteration + 1) % (p.cfg.ACTION_REPEAT : ℤ) = 0
    · rcases step_decision_fields hdec hstep with ⟨net1, a, _, _, _, hit, _⟩
      exact hit
    · rcases step_repeat_fields hdec hstep with ⟨last, _, hs', _⟩
      rw [hs']
  · intro hm1
    rw [hm1]
    simp
  · intro hrep
    rcases step_repeat_fields hrep hstep with ⟨last, _, hs', _⟩
    rw [hs']
    exact ⟨rfl, rfl⟩
  · intro hdec
    rcases step_decision_fields hdec hstep with
      ⟨net1, a, hnet, hsel, _, _, _, hrep0, _, htrans, hout⟩
    refine ⟨hrep0, a,
      { time := s.transitions.length,
        input := preprocess p (netState (obsState s) net1) f,
        action := p.actions.indexOf a, terminal := tb, reward := none },
      hout, select_action_mem hsel, rfl, rfl, rfl, rfl, ?_⟩
    rw [htrans]
    unfold remember_transition
    rw [observe_reward_length]

/-- Claim C8: with no transition recorded or fewer than `STATE_FRAMES - 1`
retained frames, the stacked state is `STATE_FRAMES` bit-identical copies of
the single normalized frame; otherwise it is the new normalized frame
followed by the retained previous frames, each normalized, most recent first
(`STATE_FRAMES` channel slices in total when the history is full). -/
theorem preprocess_cold_start_stacking {Raw Net : Type} (p : Params Raw Net)
    (s : LState Raw Net) (f : Raw) :
    (s.transitions.length = 0 ∨ s.previous_frames.length < p.cfg.STATE_FRAMES - 1 →
        preprocess p s f = List.replicate p.cfg.STATE_FRAMES (normalize_frame p f)
        ∧ ∀ c ∈ preprocess p s f, c = normalize_frame p f)
    ∧ (s.transitions.length ≠ 0 →
        ¬ s.previous_frames.length < p.cfg.STATE_FRAMES - 1 →
        preprocess p s f
          = normalize_frame p f :: s.previous_frames.map (normalize_frame p)
        ∧ (s.previous_frames.length = p.cfg.STATE_FRAMES - 1 →
            1 ≤ p.cfg.STATE_FRAMES →
            (preprocess p s f).length = p.cfg.STATE_FRAMES)) := by
  constructor
  · intro hc
    have he : preprocess p s f = List.replicate p.cfg.STATE_FRAMES (normalize_frame p f) := by
      unfold preprocess
      rw [if_pos hc]
    refine ⟨he, ?_⟩
    rw [he]
    intro c hc'
    exact List.eq_of_mem_replicate hc'
  · intro h1 h2
    have hcond : ¬ (s.transitions.length = 0
        ∨ s.previous_frames.length < p.cfg.STATE_FRAMES - 1) := by
      rintro (hx | hx)
      · exact h1 hx
      · exact h2 hx
    have he : preprocess p s f
        = normalize_frame p f :: s.previous_frames.map (normalize_frame p) := by
      unfold preprocess
      rw [if_neg hcond]
    refine ⟨he, fun hlen hK => ?_⟩
    rw [he]
    simp only [List.length_cons, List.length_map, hlen]
    omega

/-- Claim C10: a non-decision tick leaves the replay buffer, the exploration
rate and the network parameters untouched; it only advances the iteration
counter, accumulates the incoming reward and pushes the raw frame into the
bounded retained-frame history. -/
theorem step_repeat_frame_effect {Raw Net : Type} (p : Params Raw Net)
    {s s' : LState Raw Net} {f : Raw} {r : ℚ} {tb : Bool} {rand : Rand} {out : List ℤ}
    (hrep : (s.iteration + 1) % (p.cfg.ACTION_REPEAT : ℤ) ≠ 0)
    (hstep : step p s f r tb rand = some (s', out)) :
    s'.transitions = s.transitions
    ∧ s'.exploration_rate = s.exploration_rate
    ∧ s'.net = s.net
    ∧ s'.iteration = s.iteration + 1
    ∧ s'.repeating_action_rewards = s.repeating_action_rewards + r
    ∧ s'.previous_frames = dequeAppendLeft (p.cfg.STATE_FRAMES - 1) f s.previous_frames := by
  rcases step_repeat_fields hrep hstep with ⟨last, _, hs', _⟩
  rw [hs']
  exact ⟨rfl, rfl, rfl, rfl, rfl, rfl⟩

/-- Claim C4: at the point of a decision tick where a batch could be sampled
(that is, after the observation call has run on the buffer), every transition
in the buffer has its reward present, and hence every transition of any batch
`random.sample` can return has its reward present.  The observation call
(line 174) precedes the sampling (line 179) by construction of `step`. -/
theorem training_buffer_rewards_present {Raw Net : Type} (p : Params Raw Net) (n0 : Net)
    (rand : Rand) {s : LState Raw Net} (h : Reachable p n0 s) :
    (∀ t ∈ observe_reward s.repeating_action_rewards s.transitions, t.reward.isSome = true)
    ∧ ∀ mb, sampleBatch (observe_reward s.repeating_action_rewards s.transitions)
          rand.sample p.cfg.BATCH_SIZE = some mb →
        ∀ t ∈ mb, t.reward.isSome = true := by
  have hall := @observe_reward_rewards s.repeating_action_rewards s.transitions
    (reachable_rewards_dropLast p n0 h)
  refine ⟨hall, fun mb hmb t ht => ?_⟩
  rcases sampleBatch_eq_some hmb with ⟨_, _, _, hmbeq⟩
  rw [hmbeq] at ht
  exact hall t (mem_filterMap_get ht)

/-- Claim C7: the replay buffer never holds more than `REPLAY_MEMORY_SIZE`
transitions; once full it stays full across every step; appending to a full
deque drops exactly the oldest element; and the deque policy applied to any
creation history keeps exactly the `REPLAY_MEMORY_SIZE` most recent
elements. -/
theorem replay_buffer_fifo {Raw Net : Type} (p : Params Raw Net) (n0 : Net) :
    (∀ s : LState Raw Net, Reachable p n0 s →
        s.transitions.length ≤ p.cfg.REPLAY_MEMORY_SIZE)
    ∧ (∀ (ts : List Transition) (x : Transition),
        ts.length = p.cfg.REPLAY_MEMORY_SIZE → 1 ≤ p.cfg.REPLAY_MEMORY_SIZE →
        dequeAppend p.cfg.REPLAY_MEMORY_SIZE ts x = ts.tail ++ [x])
    ∧ (∀ hist : List Transition,
        List.foldl (dequeAppend p.cfg.REPLAY_MEMORY_SIZE) [] hist
          = hist.drop (hist.length - p.cfg.REPLAY_MEMORY_SIZE))
    ∧ (∀ (s s' : LState Raw Net) (f : Raw) (r : ℚ) (tb : Bool) (rand : Rand)
          (out : List ℤ),
        Reachable p n0 s → s.transitions.length = p.cfg.REPLAY_MEMORY_SIZE →
        step p s f r tb rand = some (s', out) →
        s'.transitions.length = p.cfg.REPLAY_MEMORY_SIZE) := by
  refine ⟨fun s hs => reachable_length_le p n0 hs, ?_, ?_, ?_⟩
  · intro ts x hlen hc
    unfold dequeAppend
    rw [hlen]
    have h1 : p.cfg.REPLAY_MEMORY_SIZE + 1 - p.cfg.REPLAY_MEMORY_SIZE = 1 := by omega
    rw [h1, List.drop_append_of_le_length (by omega), List.drop_one]
  · intro hist
    have hfold := foldl_dequeAppend_drop p.cfg.REPLAY_MEMORY_SIZE hist []
      (by simp)
    simpa using hfold
  · intro s s' f r tb rand out hs hlen hstep
    by_cases hdec : (s.iteration + 1) % (p.cfg.ACTION_REPEAT : ℤ) = 0
    · rcases step_decision_fields hdec hstep with
        ⟨net1, a, _, _, _, _, _, _, _, htrans, _⟩
      rw [htrans]
      unfold remember_transition
      rw [dequeAppend_length, observe_reward_length, hlen]
      omega
    · rcases step_repeat_fields hdec hstep with ⟨last, _, hs', _⟩
      rw [hs']
      exact hlen

/-- Claim C9: no training update runs on a non-decision tick, nor while the
buffer holds fewer than `REPLAY_START_SIZE` transitions; on a decision tick
with the gate open, exactly one `net.update` runs, on a batch of exactly
`BATCH_SIZE` transitions drawn at pairwise-distinct positions of the buffer
(the positions supplied by the `random.sample` oracle), every sampled
transition having its reward present, with the targets computed by
`compute_target_reward`. -/
theorem training_gate_and_minibatch {Raw Net : Type} (p : Params Raw Net) (n0 : Net)
    {s s' : LState Raw Net} {f : Raw} {r : ℚ} {tb : Bool} {rand : Rand} {out : List ℤ}
    (h : Reachable p n0 s) (hstep : step p s f r tb rand = some (s', out)) :
    ((s.iteration + 1) % (p.cfg.ACTION_REPEAT : ℤ) ≠ 0 → s'.net = s.net)
    ∧ (s.transitions.length < p.cfg.REPLAY_START_SIZE → s'.net = s.net)
    ∧ ((s.iteration + 1) % (p.cfg.ACTION_REPEAT : ℤ) = 0 →
        p.cfg.REPLAY_START_SIZE ≤ s.transitions.length →
        ∃ minibatch targets,
          sampleBatch (observe_reward s.repeating_action_rewards s.transitions)
              rand.sample p.cfg.BATCH_SIZE = some minibatch
          ∧ minibatch.length = p.cfg.BATCH_SIZE
          ∧ rand.sample.Nodup
          ∧ rand.sample.length = p.cfg.BATCH_SIZE
          ∧ minibatch = rand.sample.filterMap
              (fun i => (observe_reward s.repeating_action_rewards s.transitions).get? i)
          ∧ (∀ tr ∈ minibatch, tr.reward.isSome = true)
          ∧ minibatch.mapM (compute_target_reward p (obsState s)) = some targets
          ∧ s'.net = p.qnet.update s.net (minibatch.map (·.input))
              (minibatch.map (·.action)) targets) := by
  refine ⟨?_, ?_, ?_⟩
  · intro hrep
    rcases step_repeat_fields hrep hstep with ⟨last, _, hs', _⟩
    rw [hs']
  · intro hburn
    by_cases hdec : (s.iteration + 1) % (p.cfg.ACTION_REPEAT : ℤ) = 0
    · rcases step_decision_fields hdec hstep with ⟨net1, a, hnet, _, _, _, hsnet, _⟩
      rcases trainedNet_some hnet with ⟨_, hn1⟩ | ⟨hnb, _⟩
      · rw [hsnet, hn1]
        rfl
      · exfalso
        have hbt : is_burning_in p (obsState s).transitions = true := by
          rw [obsState, is_burning_in_observe]
          exact decide_eq_true hburn
        rw [hbt] at hnb
        exact Bool.noConfusion hnb
    · rcases step_repeat_fields hdec hstep with ⟨last, _, hs', _⟩
      rw [hs']
  · intro hdec hge
    rcases step_decision_fields hdec hstep with ⟨net1, a, hnet, _, _, _, hsnet, _⟩
    rcases trainedNet_some hnet with ⟨hb, _⟩ | ⟨hnb, mb, targets, hmb, htg, hn1⟩
    · exfalso
      have hbf : is_burning_in p (obsState s).transitions = false := by
        rw [obsState, is_burning_in_observe]
        exact decide_eq_false (not_lt.mpr hge)
      rw [hbf] at hb
      exact Bool.noConfusion hb
    · rcases sampleBatch_eq_some hmb with ⟨hslen, hnodup, hbound, hmbeq⟩
      have hall := @observe_reward_rewards s.repeating_action_rewards s.transitions
        (reachable_rewards_dropLast p n0 h)
      refine ⟨mb, targets, hmb, ?_, hnodup, hslen, hmbeq, ?_, htg, ?_⟩
      · rw [hmbeq, filterMap_get_length _ _ hbound, hslen]
      · intro tr htr
        rw [hmbeq] at htr
        exact hall tr (mem_filterMap_get htr)
      · rw [hsnet, hn1]
        rfl

/-- Claim C3: while the buffer has fewer than `REPLAY_START_SIZE` transitions
(burn-in) the exploration rate equals the configured start rate and no step
changes it; every step leaves the rate non-increasing; once the rate equals
the end rate it stays there; a post-burn-in decision tick with the rate still
above the end rate reassigns it to the linear schedule
`max END ((F - iteration) / (F - R·S))` — which equals the start rate `1` at
the first possible post-burn-in iteration `R·S` — and from the configured
final-exploration iteration on, a post-burn-in decision tick leaves the rate
exactly at the end rate. -/
theorem exploration_rate_schedule {Raw Net : Type} (p : Params Raw Net) (n0 : Net)
    (W : ConfigWF p.cfg) (hstart : p.cfg.EXPLORATION_START_RATE = 1)
    {s s' : LState Raw Net} {f : Raw} {r : ℚ} {tb : Bool} {rand : Rand} {out : List ℤ}
    (h : Reachable p n0 s) (hstep : step p s f r tb rand = some (s', out)) :
    (s.transitions.length < p.cfg.REPLAY_START_SIZE →
        s.exploration_rate = p.cfg.EXPLORATION_START_RATE)
    ∧ s'.exploration_rate ≤ s.exploration_rate
    ∧ (s.transitions.length < p.cfg.REPLAY_START_SIZE →
        s'.exploration_rate = p.cfg.EXPLORATION_START_RATE)
    ∧ (s.exploration_rate = p.cfg.EXPLORATION_END_RATE →
        s'.exploration_rate = p.cfg.EXPLORATION_END_RATE)
    ∧ ((s.iteration + 1) % (p.cfg.ACTION_REPEAT : ℤ) = 0 →
        p.cfg.REPLAY_START_SIZE ≤ s.transitions.length →
        p.cfg.EXPLORATION_END_RATE < s.exploration_rate →
        s'.exploration_rate
          = max p.cfg.EXPLORATION_END_RATE
              (exploration_quotient p.cfg (s.iteration + 1)))
    ∧ ((s.iteration + 1) % (p.cfg.ACTION_REPEAT : ℤ) = 0 →
        p.cfg.REPLAY_START_SIZE ≤ s.transitions.length →
        (p.cfg.FINAL_EXPLORATION_FRAME : ℤ) ≤ s.iteration + 1 →
        s'.exploration_rate = p.cfg.EXPLORATION_END_RATE) := by
  have hBrate := reachable_burnin_rate p n0 W h
  by_cases hdec : (s.iteration + 1) % (p.cfg.ACTION_REPEAT : ℤ) = 0
  · rcases step_decision_fields hdec hstep with ⟨net1, a, _, _, hrate, _⟩
    have hbf : p.cfg.REPLAY_START_SIZE ≤ s.transitions.length →
        is_burning_in p (observe_reward s.repeating_action_rewards s.transitions)
          = false := by
      intro hge
      rw [is_burning_in_observe]
      exact decide_eq_false (not_lt.mpr hge)
    refine ⟨hBrate, ?_, ?_, ?_, ?_, ?_⟩
    · rw [hrate, do_explore_fst]
      by_cases hc : is_burning_in p
            (observe_reward s.repeating_action_rewards s.transitions) = false
          ∧ p.cfg.EXPLORATION_END_RATE < s.exploration_rate
      · rw [if_pos hc]
        have hge : p.cfg.REPLAY_START_SIZE ≤ s.transitions.length := by
          have hc1 := hc.1
          rw [is_burning_in_observe] at hc1
          exact not_lt.mp (of_decide_eq_false hc1)
        have hitge := decision_iteration_ge p n0 W.repeat_pos h hdec hge
        refine max_le (le_of_lt hc.2) ?_
        rcases reachable_rate_line p n0 W h with hs1 | hs2
        · rw [hs1, hstart]
          exact exploration_quotient_le_one W hitge
        · exact le_trans (exploration_quotient_mono W (by linarith)) hs2
      · rw [if_neg hc]
    · intro hb
      have hbt : is_burning_in p
          (observe_reward s.repeating_action_rewards s.transitions) = true := by
        rw [is_burning_in_observe]
        exact decide_eq_true hb
      rw [hrate, do_explore_fst,
        if_neg (fun hc => by rw [hbt] at hc; exact Bool.noConfusion hc.1)]
      exact hBrate hb
    · intro hEq
      rw [hrate, do_explore_fst,
        if_neg (fun hc => absurd hc.2 (by rw [hEq]; exact lt_irrefl _))]
      exact hEq
    · intro _ hge hgt
      rw [hrate, do_explore_fst, if_pos ⟨hbf hge, hgt⟩]
    · intro _ hge hF
      by_cases hgt : p.cfg.EXPLORATION_END_RATE < s.exploration_rate
      · rw [hrate, do_explore_fst, if_pos ⟨hbf hge, hgt⟩]
        exact max_eq_left (le_trans (exploration_quotient_nonpos W hF) W.end_nonneg)
      · have hEq : s.exploration_rate = p.cfg.EXPLORATION_END_RATE :=
          le_antisymm (not_lt.mp hgt) (reachable_rate_ge_end p n0 W.end_le_start h)
        rw [hrate, do_explore_fst,
          if_neg (fun hc => absurd hc.2 (by rw [hEq]; exact lt_irrefl _))]
        exact hEq
  · rcases step_repeat_fields hdec hstep with ⟨last, _, hs', _⟩
    refine ⟨hBrate, ?_, ?_, ?_, fun hd => absurd hd hdec, fun hd => absurd hd hdec⟩
    · rw [hs']
    · intro hb
      rw [hs']
      exact hBrate hb
    · intro hEq
      rw [hs']
      exact hEq

/-! ### Witnesses: the hypothesis-bearing claim theorems applied at concrete
runs of the small learner `pW` -/

/-- Witness for claim C3 at the first tick of `pW`. -/
theorem exploration_rate_schedule_witness :
    ConfigWF pW.cfg
    ∧ pW.cfg.EXPLORATION_START_RATE = 1
    ∧ (((initState pW 0).transitions.length < pW.cfg.REPLAY_START_SIZE →
          (initState pW 0).exploration_rate = pW.cfg.EXPLORATION_START_RATE)
      ∧ sW1.exploration_rate ≤ (initState pW 0).exploration_rate
      ∧ ((initState pW 0).transitions.length < pW.cfg.REPLAY_START_SIZE →
          sW1.exploration_rate = pW.cfg.EXPLORATION_START_RATE)
      ∧ ((initState pW 0).exploration_rate = pW.cfg.EXPLORATION_END_RATE →
          sW1.exploration_rate = pW.cfg.EXPLORATION_END_RATE)
      ∧ (((initState pW 0).iteration + 1) % (pW.cfg.ACTION_REPEAT : ℤ) = 0 →
          pW.cfg.REPLAY_START_SIZE ≤ (initState pW 0).transitions.length →
          pW.cfg.EXPLORATION_END_RATE < (initState pW 0).exploration_rate →
          sW1.exploration_rate = max pW.cfg.EXPLORATION_END_RATE
            (exploration_quotient pW.cfg ((initState pW 0).iteration + 1)))
      ∧ (((initState pW 0).iteration + 1) % (pW.cfg.ACTION_REPEAT : ℤ) = 0 →
          pW.cfg.REPLAY_START_SIZE ≤ (initState pW 0).transitions.length →
          (pW.cfg.FINAL_EXPLORATION_FRAME : ℤ) ≤ (initState pW 0).iteration + 1 →
          sW1.exploration_rate = pW.cfg.EXPLORATION_END_RATE)) :=
  ⟨cfgW_wf, rfl,
    exploration_rate_schedule pW 0 cfgW_wf rfl Reachable.init
      (by decide : step pW (initState pW 0) 7 0 false randW = some (sW1, [5]))⟩

/-- Witness for claim C4 at the reachable state `sW1`. -/
theorem training_buffer_rewards_present_witness :
    (∀ t ∈ observe_reward sW1.repeating_action_rewards sW1.transitions,
        t.reward.isSome = true)
    ∧ ∀ mb, sampleBatch (observe_reward sW1.repeating_action_rewards sW1.transitions)
          randW.sample pW.cfg.BATCH_SIZE = some mb →
        ∀ t ∈ mb, t.reward.isSome = true :=
  training_buffer_rewards_present pW 0 randW sW1_reachable

/-- Witness for claim C5 at the first (decision) tick of `pW`. -/
theorem step_decision_deferred_observe_witness :
    ((initState pW 0).transitions = [] →
        observe_reward (initState pW 0).repeating_action_rewards
            (initState pW 0).transitions
          = (initState pW 0).transitions)
    ∧ (∀ hne : (initState pW 0).transitions ≠ [],
        observe_reward (initState pW 0).repeating_action_rewards
            (initState pW 0).transitions
          = (initState pW 0).transitions.dropLast
            ++ [{ (initState pW 0).transitions.getLast hne with
                  reward := some (clip (initState pW 0).repeating_action_rewards) }])
    ∧ ∃ tNew, tNew.reward = none
        ∧ sW1.transitions = dequeAppend pW.cfg.REPLAY_MEMORY_SIZE
            (observe_reward (initState pW 0).repeating_action_rewards
              (initState pW 0).transitions) tNew :=
  step_decision_deferred_observe pW (by decide)
    (by decide : step pW (initState pW 0) 7 0 false randW = some (sW1, [5]))

/-- Witness for claim C6 at the first (decision) tick of `pW`. -/
theorem step_action_repeat_cadence_witness :
    sW1.iteration = (initState pW 0).iteration + 1
    ∧ ((initState pW 0).iteration = -1 →
        ((initState pW 0).iteration + 1) % (pW.cfg.ACTION_REPEAT : ℤ) = 0)
    ∧ (((initState pW 0).iteration + 1) % (pW.cfg.ACTION_REPEAT : ℤ) ≠ 0 →
        sW1.transitions = (initState pW 0).transitions
        ∧ sW1.repeating_action_rewards
            = (initState pW 0).repeating_action_rewards + 0)
    ∧ (((initState pW 0).iteration + 1) % (pW.cfg.ACTION_REPEAT : ℤ) = 0 →
        sW1.repeating_action_rewards = 0
        ∧ ∃ a tNew, [(5 : ℤ)] = [a] ∧ a ∈ pW.actions
          ∧ tNew.reward = none
          ∧ tNew.time = (initState pW 0).transitions.length
          ∧ tNew.terminal = false
          ∧ tNew.action = pW.actions.indexOf a
          ∧ sW1.transitions = dequeAppend pW.cfg.REPLAY_MEMORY_SIZE
              (observe_reward (initState pW 0).repeating_action_rewards
                (initState pW 0).transitions) tNew) :=
  step_action_repeat_cadence pW
    (by decide : step pW (initState pW 0) 7 0 false randW = some (sW1, [5]))

/-- Witness for claim C7: the capacity bound at the initial state and the
most-recent-window characterization on a four-element creation history. -/
theorem replay_buffer_fifo_witness :
    (initState pW 0).transitions.length ≤ pW.cfg.REPLAY_MEMORY_SIZE
    ∧ List.foldl (dequeAppend pW.cfg.REPLAY_MEMORY_SIZE) [] hist4
        = hist4.drop (hist4.length - pW.cfg.REPLAY_MEMORY_SIZE) :=
  ⟨(replay_buffer_fifo pW 0).1 (initState pW 0) Reachable.init,
   (replay_buffer_fifo pW 0).2.2.1 hist4⟩

/-- Witness for claim C8 at the cold start of `pW`. -/
theorem preprocess_cold_start_stacking_witness :
    ((initState pW 0).transitions.length = 0
        ∨ (initState pW 0).previous_frames.length < pW.cfg.STATE_FRAMES - 1)
    ∧ preprocess pW (initState pW 0) 7
        = List.replicate pW.cfg.STATE_FRAMES (normalize_frame pW 7) :=
  ⟨by decide, ((preprocess_cold_start_stacking pW (initState pW 0) 7).1 (by decide)).1⟩

/-- Witness for claim C9 at the decision tick from the reachable state `sW2`
(the gate is open: burn-in size 1, one transition in the buffer). -/
theorem training_gate_and_minibatch_witness :
    ((sW2.iteration + 1) % (pW.cfg.ACTION_REPEAT : ℤ) ≠ 0 → sW3.net = sW2.net)
    ∧ (sW2.transitions.length < pW.cfg.REPLAY_START_SIZE → sW3.net = sW2.net)
    ∧ ((sW2.iteration + 1) % (pW.cfg.ACTION_REPEAT : ℤ) = 0 →
        pW.cfg.REPLAY_START_SIZE ≤ sW2.transitions.length →
        ∃ minibatch targets,
          sampleBatch (observe_reward sW2.repeating_action_rewards sW2.transitions)
              randW.sample pW.cfg.BATCH_SIZE = some minibatch
          ∧ minibatch.length = pW.cfg.BATCH_SIZE
          ∧ randW.sample.Nodup
          ∧ randW.sample.length = pW.cfg.BATCH_SIZE
          ∧ minibatch = randW.sample.filterMap
              (fun i => (observe_reward sW2.repeating_action_rewards sW2.transitions).get? i)
          ∧ (∀ tr ∈ minibatch, tr.reward.isSome = true)
          ∧ minibatch.mapM (compute_target_reward pW (obsState sW2)) = some targets
          ∧ sW3.net = pW.qnet.update sW2.net (minibatch.map (·.input))
              (minibatch.map (·.action)) targets) :=
  training_gate_and_minibatch pW 0 sW2_reachable
    (by decide : step pW sW2 9 2 false randW = some (sW3, [5]))

/-- Witness for claim C10 at the repeat tick from `sW1`. -/
theorem step_repeat_frame_effect_witness :
    sW2.transitions = sW1.transitions
    ∧ sW2.exploration_rate = sW1.exploration_rate
    ∧ sW2.net = sW1.net
    ∧ sW2.iteration = sW1.iteration + 1
    ∧ sW2.repeating_action_rewards = sW1.repeating_action_rewards + 1
    ∧ sW2.previous_frames
        = dequeAppendLeft (pW.cfg.STATE_FRAMES - 1) 8 sW1.previous_frames :=
  step_repeat_frame_effect pW (by decide)
    (by decide : step pW sW1 8 1 false randW = some (sW2, [0]))

end Mqrio
